import Mathlib

/-!
Verification of the validated transaction pool
(`substrate/client/transaction-pool/src/graph/validated_pool.rs`).

The validated pool orchestrates an abstract base pool, a rotator (recency
filter and ban list) and an event dispatcher.  The base pool, the rotator and
the event dispatcher live in sibling modules that are not part of the sources
under verification, so:

* the base pool is embedded as an abstract interface (`BaseOps`) over an
  arbitrary state type; theorems quantify over every implementation;
* the rotator and a few small helpers are modelled from the specification
  text (marked `Modelled from the spec:` in their doc comments);
* everything else is a direct shallow embedding of `validated_pool.rs`.

Hashes, tags, opaque transaction bodies and error payloads are represented by
natural numbers.  Rust `Instant` values are represented by natural numbers
passed explicitly wherever the source calls `Instant::now()`.  Effects on the
event dispatcher and on the import-notification sinks are recorded in an
ordered trace, so that dispatch/push ordering is observable.
-/

/-- Transaction record stored in the pool (`base_pool::Transaction`), with
the arrival instant of its `TimedTransactionSource` flattened into a field. -/
structure Tx where
  data : Nat
  bytes : Nat
  hash : Nat
  priority : Nat
  requires : List Nat
  provides : List Nat
  propagate : Bool
  valid_till : Nat
  arrival : Nat
deriving DecidableEq, Repr

/-- Pool error kinds (`sc_transaction_pool_api::error::Error`); `Other`
stands for a chain-api error that does not convert into a pool error. -/
inductive PoolError where
  | AlreadyImported (h : Nat)
  | TemporarilyBanned
  | TooLowPriority (old upd : Nat)
  | ImmediatelyDropped
  | Unactionable
  | InvalidTransaction (reason : Nat)
  | UnknownValidity (reason : Nat)
  | CycleDetected
  | Other (code : Nat)
deriving DecidableEq, Repr

/-- Pre-validated transaction verdict (`ValidatedTransaction`). -/
inductive ValidatedTransaction where
  | Valid (tx : Tx)
  | Invalid (hash : Nat) (err : PoolError)
  | Unknown (hash : Nat) (err : PoolError)
deriving DecidableEq, Repr

/-- Result of a base-pool import (`base_pool::Imported`). -/
inductive Imported where
  | Ready (hash : Nat) (promoted : List Nat) (failed : List Nat) (removed : List Tx)
  | Future (hash : Nat)
deriving DecidableEq, Repr

/-- The hash of an import result (`Imported::hash`). -/
def Imported.hash : Imported → Nat
  | .Ready h _ _ _ => h
  | .Future h => h

/-- Transaction status used internally by `resubmit`. -/
inductive Status where
  | Future
  | Ready
  | Failed
  | Dropped
deriving DecidableEq, Repr

/-- Lifecycle events dispatched through the event dispatcher. -/
inductive Event where
  | future (h : Nat)
  | ready (h : Nat)
  | dropped (h : Nat)
  | invalid (h : Nat)
  | usurped (h newTx : Nat)
  | limitsEnforced (h : Nat)
  | pruned (blockHash h : Nat)
deriving DecidableEq, Repr

/-- One step of the observable effect trace: an event dispatch, the
import-notification sink feeding step for a hash, or the entry point of
`enforce_limits` (recorded so that its invocation is observable). -/
inductive Act where
  | ev (e : Event)
  | sinkPush (h : Nat)
  | enforceLimitsCall
deriving DecidableEq, Repr

/-- Submission outcome (`BaseSubmitOutcome`); the watcher of
`submit_and_watch` is modelled by a boolean presence flag. -/
structure SubmitOutcome where
  hash : Nat
  priority : Option Nat
  watcher : Bool
deriving DecidableEq, Repr

/-- Capacity limit for one pool partition (`base_pool::Limit`). -/
structure Limit where
  count : Nat
  total_bytes : Nat
deriving DecidableEq, Repr

/-- Modelled from the spec: a partition exceeds its cap when its count or its
byte total is strictly above the configured limit (`Limit::is_exceeded`,
whose code lives in the base-pool module that is not among the sources). -/
def Limit.is_exceeded (l : Limit) (count bytes : Nat) : Bool :=
  l.count < count || l.total_bytes < bytes

/-- Pool status counters (`PoolStatus`). -/
structure PoolStatus where
  ready : Nat
  ready_bytes : Nat
  future : Nat
  future_bytes : Nat
deriving DecidableEq, Repr

/-- Pool configuration (`Options`). -/
structure Options where
  ready : Limit
  future : Limit
  reject_future_transactions : Bool
  ban_time : Nat
deriving DecidableEq, Repr

/-- A bounded import-notification sink: capacity, buffered hashes, and a flag
recording that the receiving end was dropped. -/
structure Sink where
  cap : Nat
  buf : List Nat
  closed : Bool
deriving DecidableEq, Repr

/-- Association-list lookup (first entry with the given key). -/
def lookupA {α : Type} (k : Nat) (l : List (Nat × α)) : Option α :=
  (l.find? (fun e => e.1 == k)).map (·.2)

/-- Remove the first entry with the given key (`shift_remove` of a map entry,
keeping the order of the rest). -/
def eraseKey {α : Type} (k : Nat) (l : List (Nat × α)) : List (Nat × α) :=
  l.eraseP (fun e => e.1 == k)

/-- Map insert: replace the value under an existing key, or append. -/
def insertA {α : Type} (k : Nat) (v : α) (l : List (Nat × α)) : List (Nat × α) :=
  if (l.find? (fun e => e.1 == k)).isSome then
    l.map (fun e => if e.1 == k then (k, v) else e)
  else l ++ [(k, v)]

/-- Modelled from the spec: the rotator keeps a map from hash to the instant
until which the hash is banned, a ban duration, and the hard age bound used
by the staleness check (`PoolRotator`, whose code is not among the sources). -/
structure Rotator where
  ban_time : Nat
  hard_age : Nat
  banned : List (Nat × Nat)
deriving DecidableEq, Repr

/-- Modelled from the spec: `ban(now, hashes)` records
`until = now + ban_duration` for every given hash. -/
def Rotator.ban (r : Rotator) (now : Nat) (hashes : List Nat) : Rotator :=
  { r with banned := hashes.foldl (fun m h => insertA h (now + r.ban_time) m) r.banned }

/-- Modelled from the spec: `is_banned(hash)` holds while `until > now`. -/
def Rotator.is_banned (r : Rotator) (now h : Nat) : Bool :=
  match lookupA h r.banned with
  | some u => now < u
  | none => false

/-- Modelled from the spec: `clear_timeouts(now)` evicts expired entries. -/
def Rotator.clear_timeouts (r : Rotator) (now : Nat) : Rotator :=
  { r with banned := r.banned.filter (fun e => now < e.2) }

/-- Modelled from the spec: the staleness predicate of `ban_if_stale` —
`tx.valid_till < current_block` or `now − tx.arrival_timestamp > hard_age`. -/
def staleB (hard_age now number : Nat) (tx : Tx) : Bool :=
  decide (tx.valid_till < number) || decide (hard_age < now - tx.arrival)

/-- Modelled from the spec: `ban_if_stale(now, current_block, tx)` returns
true and bans the hash exactly when the staleness predicate holds. -/
def Rotator.ban_if_stale (r : Rotator) (now number : Nat) (tx : Tx) : Bool × Rotator :=
  if staleB r.hard_age now number tx then (true, r.ban now [tx.hash]) else (false, r)

/-- Abstract interface of the base pool (`base_pool::BasePool`), whose code
is not among the sources: the validated pool is verified against every
implementation of this interface. -/
structure BaseOps (σ : Type) where
  importTx : σ → Tx → Except PoolError Imported × σ
  removeSubtree : σ → List Nat → List Tx × σ
  enforceLimits : σ → Limit → Limit → List Tx × σ
  status : σ → PoolStatus
  readyList : σ → List Tx
  futuresList : σ → List Tx
  clearFuture : σ → List Tx × σ
  getRejectFuture : σ → Bool
  setRejectFuture : σ → Bool → σ

/-- State of a `ValidatedPool`: base-pool state, configuration, rotator,
import-notification sinks, watcher registry, validator flag, and the
observable effect trace. -/
structure VPool (σ : Type) where
  base : σ
  options : Options
  rotator : Rotator
  sinks : List Sink
  watchers : List Nat
  is_validator : Bool
  trace : List Act

/-- The events contained in a trace, in dispatch order. -/
def eventsOf (tr : List Act) : List Event :=
  tr.filterMap (fun a => match a with | .ev e => some e | _ => none)

/-- Largest `u64` value. -/
def U64MAX : Nat := 2 ^ 64 - 1

/-- `u64::saturating_add`. -/
def saturatingAdd64 (a b : Nat) : Nat := min (a + b) U64MAX

/-- The fields of a `ValidTransaction` used by `valid_at`. -/
structure ValidTransactionV where
  priority : Nat
  requires : List Nat
  provides : List Nat
  longevity : Nat
  propagate : Bool
deriving DecidableEq, Repr

/-- `ValidatedTransaction::valid_at`: build a `Valid` verdict whose
`valid_till` is `at + longevity` with saturating `u64` addition. -/
def valid_at (at_ hash : Nat) (arrival : Nat) (data : Nat) (bytes : Nat)
    (validity : ValidTransactionV) : ValidatedTransaction :=
  .Valid {
    data := data
    bytes := bytes
    hash := hash
    priority := validity.priority
    requires := validity.requires
    provides := validity.provides
    propagate := validity.propagate
    valid_till := saturatingAdd64 at_ validity.longevity
    arrival := arrival }

/-- `fire_events`: the events dispatched for one base-pool import result. -/
def fire_events (imported : Imported) : List Event :=
  match imported with
  | .Ready h promoted failed removed =>
      Event.ready h ::
        (failed.map Event.invalid ++
          removed.map (fun r => Event.usurped r.hash h) ++
          promoted.map Event.ready)
  | .Future h => [Event.future h]

/-- `Sender::try_send` on one sink: a closed sink is dropped, a full sink is
kept without delivery (warn), otherwise the hash is appended to its buffer. -/
def trySendSink (s : Sink) (h : Nat) : Option Sink :=
  if s.closed then none
  else if s.cap ≤ s.buf.length then some s
  else some { s with buf := s.buf ++ [h] }

/-- The sink-feeding step of `submit_one` for a `Ready` import: push the hash
into every sink (retaining full sinks, dropping closed ones) and record the
program point in the trace. -/
def feedSinks {σ : Type} (p : VPool σ) (h : Nat) : VPool σ :=
  { p with
    sinks := p.sinks.filterMap (fun s => trySendSink s h)
    trace := p.trace ++ [Act.sinkPush h] }

/-- `ValidatedPool::submit_one`. -/
def submit_one {σ : Type} (ops : BaseOps σ) (now : Nat) (p : VPool σ)
    (vtx : ValidatedTransaction) : Except PoolError SubmitOutcome × VPool σ :=
  match vtx with
  | .Valid tx =>
    if !tx.propagate && !p.is_validator then (.error .Unactionable, p)
    else
      let ir := ops.importTx p.base tx
      match ir.1 with
      | .error e => (.error e, { p with base := ir.2 })
      | .ok imported =>
        let p1 := { p with base := ir.2 }
        let p2 := match imported with
          | .Ready h _ _ _ => feedSinks p1 h
          | .Future _ => p1
        let p3 := { p2 with trace := p2.trace ++ (fire_events imported).map Act.ev }
        (.ok { hash := imported.hash, priority := some tx.priority, watcher := false }, p3)
  | .Invalid tx_hash e =>
    (.error e, { p with rotator := p.rotator.ban now [tx_hash] })
  | .Unknown tx_hash e =>
    (.error e, { p with trace := p.trace ++ [Act.ev (Event.invalid tx_hash)] })

/-- The per-element phase of `ValidatedPool::submit`: run `submit_one` over
the batch in order, collecting the results. -/
def submit_all {σ : Type} (ops : BaseOps σ) (now : Nat) (p : VPool σ) :
    List ValidatedTransaction → List (Except PoolError SubmitOutcome) × VPool σ
  | [] => ([], p)
  | vtx :: rest =>
    let s1 := submit_one ops now p vtx
    let s2 := submit_all ops now s1.2 rest
    (s1.1 :: s2.1, s2.2)

/-- First-occurrence deduplication (the `HashSet` collection of hashes in
`enforce_limits`, and the seen-set loop of `fire_pruned`). -/
def dedupKeepFirst (l : List Nat) : List Nat :=
  l.foldl (fun acc h => if acc.contains h then acc else acc ++ [h]) []

/-- `ValidatedPool::enforce_limits`: when a partition exceeds its cap, evict
through the base pool, ban every evicted hash, dispatch `limits_enforced`
for each, and return the eviction set; otherwise return the empty set. -/
def enforce_limits {σ : Type} (ops : BaseOps σ) (now : Nat) (p : VPool σ) :
    List Nat × VPool σ :=
  let p := { p with trace := p.trace ++ [Act.enforceLimitsCall] }
  let status := ops.status p.base
  if p.options.ready.is_exceeded status.ready status.ready_bytes ||
      p.options.future.is_exceeded status.future status.future_bytes then
    let el := ops.enforceLimits p.base p.options.ready p.options.future
    let removed := dedupKeepFirst (el.1.map (·.hash))
    (removed,
      { p with
        base := el.2
        rotator := p.rotator.ban now removed
        trace := p.trace ++ removed.map (fun h => Act.ev (Event.limitsEnforced h)) })
  else ([], p)

/-- The post-processing rewrite of `submit`: a successful outcome whose hash
was evicted becomes `Err(ImmediatelyDropped)`; everything else is kept. -/
def rewriteEvicted (removed : List Nat) (r : Except PoolError SubmitOutcome) :
    Except PoolError SubmitOutcome :=
  match r with
  | .ok outcome =>
    if removed.contains outcome.hash then .error .ImmediatelyDropped else .ok outcome
  | .error e => .error e

/-- `ValidatedPool::submit`: submit each verdict, enforce limits when at
least one import succeeded, and rewrite evicted successes to
`ImmediatelyDropped`. -/
def submit {σ : Type} (ops : BaseOps σ) (now : Nat) (p : VPool σ)
    (txs : List ValidatedTransaction) : List (Except PoolError SubmitOutcome) × VPool σ :=
  let sa := submit_all ops now p txs
  let el := if sa.1.any (fun r => r.toBool) then enforce_limits ops now sa.2 else ([], sa.2)
  (sa.1.map (rewriteEvicted el.1), el.2)

/-- `ValidatedPool::create_watcher`: register a watcher for the hash. -/
def create_watcher {σ : Type} (p : VPool σ) (tx_hash : Nat) : VPool σ :=
  { p with watchers := p.watchers ++ [tx_hash] }

/-- `ValidatedPool::submit_and_watch`; the chain api hashing function
(`hash_and_length`) is passed as `api`. -/
def submit_and_watch {σ : Type} (ops : BaseOps σ) (api : Nat → Nat) (now : Nat)
    (p : VPool σ) (vtx : ValidatedTransaction) :
    Except PoolError SubmitOutcome × VPool σ :=
  match vtx with
  | .Valid tx =>
    let hsh := api tx.data
    let p1 := create_watcher p hsh
    let sb := submit ops now p1 [ValidatedTransaction.Valid tx]
    match sb.1 with
    | [r] => (r.map (fun o => { o with watcher := true }), sb.2)
    | _ => (.error (.Other 0), sb.2)
  | .Invalid hsh e =>
    (.error e, { p with rotator := p.rotator.ban now [hsh] })
  | .Unknown _ e => (.error e, p)

/-- `ValidatedPool::remove_subtree`: optionally ban the root hashes, remove
the subtree through the base pool, and dispatch the given event for every
removed transaction. -/
def remove_subtree {σ : Type} (ops : BaseOps σ) (now : Nat) (p : VPool σ)
    (hashes : List Nat) (ban_transactions : Bool) (mkEvent : Nat → Event) :
    List Tx × VPool σ :=
  let rot := if ban_transactions then p.rotator.ban now hashes else p.rotator
  let rs := ops.removeSubtree p.base hashes
  (rs.1,
    { p with
      base := rs.2
      rotator := rot
      trace := p.trace ++ rs.1.map (fun t => Act.ev (mkEvent t.hash)) })

/-- `ValidatedPool::remove_invalid`: early-exit on the empty list, otherwise
remove the subtree with root bans, dispatching `invalid` per removal. -/
def remove_invalid {σ : Type} (ops : BaseOps σ) (now : Nat) (p : VPool σ)
    (hashes : List Nat) : List Tx × VPool σ :=
  if hashes.isEmpty then ([], p)
  else remove_subtree ops now p hashes true Event.invalid

/-- The stale-collection pass of `clear_stale` over one iterator: collect the
hashes of transactions for which `ban_if_stale` returns true, threading the
rotator (which bans each stale hash as a side effect). -/
def banIfStaleFilter (r : Rotator) (now number : Nat) : List Tx → List Nat × Rotator
  | [] => ([], r)
  | tx :: rest =>
    let s1 := r.ban_if_stale now number tx
    let s2 := banIfStaleFilter s1.2 now number rest
    (if s1.1 then tx.hash :: s2.1 else s2.1, s2.2)

/-- `ValidatedPool::clear_stale`: collect stale hashes from the ready and the
future iterators, remove both collections via `remove_invalid`, then clear
expired rotator entries. -/
def clear_stale {σ : Type} (ops : BaseOps σ) (now : Nat) (p : VPool σ)
    (number : Nat) : VPool σ :=
  let f1 := banIfStaleFilter p.rotator now number (ops.readyList p.base)
  let f2 := banIfStaleFilter f1.2 now number (ops.futuresList p.base)
  let p1 := { p with rotator := f2.2 }
  let p2 := (remove_invalid ops now p1 f1.1).2
  let p3 := (remove_invalid ops now p2 f2.1).2
  { p3 with rotator := p3.rotator.clear_timeouts now }

/-- `ValidatedPool::fire_pruned`: dispatch `pruned` (a.k.a. `in_block`) once
per distinct hash, in first-occurrence order. -/
def fire_pruned {σ : Type} (p : VPool σ) (atHash : Nat) (hashes : List Nat) : VPool σ :=
  { p with trace := p.trace ++ (dedupKeepFirst hashes).map (fun h => Act.ev (Event.pruned atHash h)) }

/-- The hash collection of `resubmit_pruned`: for every submission result
whose error classifies to `InvalidTransaction`, take `pruned_hashes[idx]`. -/
def collectPrunedHashes (pruned_hashes : List Nat)
    (results : List (Except PoolError SubmitOutcome)) : List Nat :=
  results.enum.filterMap (fun ir =>
    match ir.2 with
    | .error (.InvalidTransaction _) => some (pruned_hashes.getD ir.1 0)
    | _ => none)

/-- `ValidatedPool::resubmit_pruned`: submit the pruned candidates, fire the
deduplicated `pruned` notifications for the invalid-classified hashes chained
with the known imported hashes, then run `clear_stale`. -/
def resubmit_pruned {σ : Type} (ops : BaseOps σ) (now : Nat) (p : VPool σ)
    (atHash atNumber : Nat) (known_imported_hashes : List Nat)
    (pruned_hashes : List Nat) (pruned_xts : List ValidatedTransaction) : VPool σ :=
  let sb := submit ops now p pruned_xts
  let hashes := collectPrunedHashes pruned_hashes sb.1
  let p2 := fire_pruned sb.2 atHash (hashes ++ known_imported_hashes)
  clear_stale ops now p2 atNumber

/-- The inner loop of the removal phase of `resubmit`: for every removed
transaction, consume its updated verdict from the map (or re-wrap the removed
record as `Valid`), record initial status `Ready`, and queue the re-import. -/
def processRemoved : List Tx → List (Nat × ValidatedTransaction) →
    List (Nat × Status) → List (Nat × ValidatedTransaction) →
    List (Nat × ValidatedTransaction) × List (Nat × Status) × List (Nat × ValidatedTransaction)
  | [], upd, ini, acc => (upd, ini, acc)
  | rtx :: rs, upd, ini, acc =>
    let txr := match lookupA rtx.hash upd with
      | some utx => utx
      | none => ValidatedTransaction.Valid rtx
    processRemoved rs (eraseKey rtx.hash upd) (insertA rtx.hash Status.Ready ini)
      (acc ++ [(rtx.hash, txr)])

/-- The removal phase of `resubmit`: while the updated map is non-empty, take
its first hash, remove its subtree from the base pool, and queue every removed
transaction for re-import; always discard the first hash from the map. -/
def resubmitCollect {σ : Type} (ops : BaseOps σ) :
    σ → List (Nat × ValidatedTransaction) → List (Nat × Status) →
    List (Nat × ValidatedTransaction) →
    List (Nat × Status) × List (Nat × ValidatedTransaction) × σ
  | base, [], initial, acc => (initial, acc, base)
  | base, (h, v) :: rest, initial, acc =>
    let step := ops.removeSubtree base [h]
    let pr := processRemoved step.1 ((h, v) :: rest) initial acc
    resubmitCollect ops step.2 (eraseKey h pr.1) pr.2.1 pr.2.2
termination_by base updated initial acc => updated.length
decreasing_by
  simp only [eraseKey]
  have hkey : ∀ (rem : List Tx) (u : List (Nat × ValidatedTransaction))
      (i : List (Nat × Status)) (a : List (Nat × ValidatedTransaction)),
      List.Sublist (processRemoved rem u i a).1 u := by
    intro rem
    induction rem with
    | nil => intro u i a; simp [processRemoved]
    | cons r rs ih =>
      intro u i a
      simp only [processRemoved]
      exact (ih _ _ _).trans (List.eraseP_sublist _)
  have hsub := hkey step.1 ((h, v) :: rest) initial acc
  have h2 : ∀ (u1 : List (Nat × ValidatedTransaction)),
      List.Sublist u1 ((h, v) :: rest) →
      List.Sublist (u1.eraseP (fun e => e.1 == h)) rest := by
    intro u1 hs1
    cases hs1 with
    | cons _ hs => exact (List.eraseP_sublist _).trans hs
    | cons₂ _ hs =>
      rw [List.eraseP_cons_of_pos (by simp)]
      exact hs
  exact Nat.lt_succ_of_le (h2 _ hsub).length_le

/-- The re-import phase of `resubmit`: import every queued verdict with
future transactions temporarily permitted, recording final statuses. -/
def resubmitApply {σ : Type} (ops : BaseOps σ) :
    σ → List (Nat × ValidatedTransaction) → List (Nat × Status) →
    List (Nat × Status) × σ
  | base, [], final => (final, base)
  | base, (tx_hash, v) :: rest, final =>
    match v with
    | .Valid tx =>
      let ir := ops.importTx base tx
      match ir.1 with
      | .ok (.Ready _ promoted failed removed) =>
        let f1 := insertA tx_hash Status.Ready final
        let f2 := promoted.foldl (fun m ph => insertA ph Status.Ready m) f1
        let f3 := failed.foldl (fun m fh => insertA fh Status.Failed m) f2
        let f4 := removed.foldl (fun m t => insertA t.hash Status.Dropped m) f3
        resubmitApply ops ir.2 rest f4
      | .ok (.Future _) =>
        resubmitApply ops ir.2 rest (insertA tx_hash Status.Future final)
      | .error _ =>
        resubmitApply ops ir.2 rest (insertA tx_hash Status.Failed final)
    | .Invalid _ _ => resubmitApply ops base rest (insertA tx_hash Status.Failed final)
    | .Unknown _ _ => resubmitApply ops base rest (insertA tx_hash Status.Failed final)

/-- The status-computing core of `resubmit`: removal phase, re-import phase
with rejection of future transactions temporarily disabled, clearing of the
future queue when rejection was originally enabled, and restoration of the
flag.  Returns the initial statuses, the final statuses, and the base state. -/
def resubmitCore {σ : Type} (ops : BaseOps σ) (base : σ)
    (updated : List (Nat × ValidatedTransaction)) :
    List (Nat × Status) × List (Nat × Status) × σ :=
  let rc := resubmitCollect ops base updated [] []
  let prev := ops.getRejectFuture rc.2.2
  let base2 := ops.setRejectFuture rc.2.2 false
  let ra := resubmitApply ops base2 rc.2.1 []
  let fin :=
    if prev then
      let cf := ops.clearFuture ra.2
      (cf.1.foldl (fun m t => insertA t.hash Status.Dropped m) ra.1, cf.2)
    else (ra.1, ra.2)
  (rc.1, fin.1, ops.setRejectFuture fin.2 prev)

/-- The event corresponding to a final status in `resubmit`. -/
def statusEvent (h : Nat) : Status → Event
  | .Future => Event.future h
  | .Ready => Event.ready h
  | .Dropped => Event.dropped h
  | .Failed => Event.invalid h

/-- The notification phase of `resubmit`: for every final-status entry,
remove its initial status and dispatch the status event exactly when the
initial status was absent or different. -/
def dispatchDelta : List (Nat × Status) → List (Nat × Status) → List Event
  | [], _ => []
  | (h, fs) :: rest, ini =>
    (if lookupA h ini = some fs then [] else [statusEvent h fs]) ++
      dispatchDelta rest (eraseKey h ini)

/-- `ValidatedPool::resubmit`. -/
def resubmit {σ : Type} (ops : BaseOps σ) (p : VPool σ)
    (updated : List (Nat × ValidatedTransaction)) : VPool σ :=
  let rc := resubmitCore ops p.base updated
  { p with base := rc.2.2, trace := p.trace ++ (dispatchDelta rc.2.1 rc.1).map Act.ev }

/-- A small concrete implementation of the base-pool interface, used to
instantiate the universally quantified theorems on explicit inputs.  It keeps
a ready list and a future list, admits a transaction to ready when every
required tag is provided by a ready transaction, and evicts by list position
beyond the count limit. -/
structure SimpleBase where
  readyTxs : List Tx
  futureTxs : List Tx
  rejectFuture : Bool
deriving DecidableEq, Repr

/-- All tags provided by the ready transactions of a `SimpleBase`. -/
def SimpleBase.providedTags (s : SimpleBase) : List Nat :=
  s.readyTxs.foldl (fun acc t => acc ++ t.provides) []

/-- Import for `SimpleBase`. -/
def simpleImport (s : SimpleBase) (tx : Tx) : Except PoolError Imported × SimpleBase :=
  if (s.readyTxs ++ s.futureTxs).any (fun t => t.hash == tx.hash) then
    (.error (.AlreadyImported tx.hash), s)
  else if tx.requires.all (fun t => s.providedTags.contains t) then
    (.ok (.Ready tx.hash [] [] []), { s with readyTxs := s.readyTxs ++ [tx] })
  else if s.rejectFuture then (.error (.Other 1), s)
  else (.ok (.Future tx.hash), { s with futureTxs := s.futureTxs ++ [tx] })

/-- Subtree removal for `SimpleBase` (removal by hash membership). -/
def simpleRemove (s : SimpleBase) (hs : List Nat) : List Tx × SimpleBase :=
  ((s.readyTxs ++ s.futureTxs).filter (fun t => hs.contains t.hash),
   { s with
     readyTxs := s.readyTxs.filter (fun t => !hs.contains t.hash)
     futureTxs := s.futureTxs.filter (fun t => !hs.contains t.hash) })

/-- Limit enforcement for `SimpleBase`: evict everything beyond the count
limit of each partition, by list position. -/
def simpleEnforce (s : SimpleBase) (rl fl : Limit) : List Tx × SimpleBase :=
  (s.readyTxs.drop rl.count ++ s.futureTxs.drop fl.count,
   { s with readyTxs := s.readyTxs.take rl.count, futureTxs := s.futureTxs.take fl.count })

/-- Status for `SimpleBase`. -/
def simpleStatus (s : SimpleBase) : PoolStatus :=
  { ready := s.readyTxs.length
    ready_bytes := s.readyTxs.foldl (fun acc t => acc + t.bytes) 0
    future := s.futureTxs.length
    future_bytes := s.futureTxs.foldl (fun acc t => acc + t.bytes) 0 }

/-- The `BaseOps` instance for `SimpleBase`. -/
def simpleOps : BaseOps SimpleBase :=
  { importTx := simpleImport
    removeSubtree := simpleRemove
    enforceLimits := simpleEnforce
    status := simpleStatus
    readyList := fun s => s.readyTxs
    futuresList := fun s => s.futureTxs
    clearFuture := fun s => (s.futureTxs, { s with futureTxs := [] })
    getRejectFuture := fun s => s.rejectFuture
    setRejectFuture := fun s b => { s with rejectFuture := b } }

/-- Default options used by the concrete instantiations. -/
def optsDefault : Options :=
  { ready := { count := 8, total_bytes := 4096 }
    future := { count := 8, total_bytes := 4096 }
    reject_future_transactions := false
    ban_time := 10 }

/-- A fresh rotator used by the concrete instantiations. -/
def rotDefault : Rotator := { ban_time := 10, hard_age := 1000, banned := [] }

/-- An empty concrete pool state. -/
def pEmpty : VPool SimpleBase :=
  { base := { readyTxs := [], futureTxs := [], rejectFuture := false }
    options := optsDefault
    rotator := rotDefault
    sinks := []
    watchers := []
    is_validator := true
    trace := [] }

/-- A concrete transaction with no requirements. -/
def txFree (h : Nat) : Tx :=
  { data := h, bytes := 1, hash := h, priority := 5, requires := [], provides := [100 + h],
    propagate := true, valid_till := 1000, arrival := 0 }

/-- Scenario S6, provider: ready, provides tag 10. -/
def txS6a : Tx := { txFree 1 with provides := [10] }

/-- Scenario S6, dependant: ready, requires tag 10. -/
def txS6b : Tx := { txFree 2 with requires := [10], provides := [11] }

/-- Scenario S6 pool: both transactions ready. -/
def pS6 : VPool SimpleBase :=
  { pEmpty with base := { readyTxs := [txS6a, txS6b], futureTxs := [], rejectFuture := false } }

/-- Scenario S6 revalidation map: both re-validated to the same records. -/
def updS6 : List (Nat × ValidatedTransaction) :=
  [(1, ValidatedTransaction.Valid txS6a), (2, ValidatedTransaction.Valid txS6b)]

/-- A pool with one open import-notification sink (for the ordering claims). -/
def pSink : VPool SimpleBase :=
  { pEmpty with sinks := [{ cap := 4, buf := [], closed := false }] }

/-- A pool over capacity: ready-count limit 1 with two ready transactions. -/
def pOver : VPool SimpleBase :=
  { pEmpty with
    base := { readyTxs := [txFree 1, txFree 2], futureTxs := [], rejectFuture := false }
    options := { optsDefault with ready := { count := 1, total_bytes := 4096 } } }

/-- Scenario S5 transaction: stale at block 200 (`valid_till = 100`). -/
def txStale : Tx := { txFree 3 with valid_till := 100 }

/-- Scenario S5 pool: one stale ready transaction. -/
def pStale : VPool SimpleBase :=
  { pEmpty with base := { readyTxs := [txStale], futureTxs := [], rejectFuture := false } }

/-- Structural model of the `ValidatedPool` struct itself, used for the
clone behavior: the event dispatcher is a watcher registry plus an optional
event handler (its `Default` is an empty registry and no handler, modelled
from the spec since the dispatcher module is not among the sources). -/
structure EventDispatcherS where
  handler : Option Nat
  watchers : List (Nat × Nat)
deriving DecidableEq, Repr

/-- The `ValidatedPool` struct with all fields relevant to cloning. -/
structure FullPool (σ : Type) where
  api : Nat
  is_validator : Bool
  options : Options
  event_dispatcher : EventDispatcherS
  pool : σ
  import_notification_sinks : List Sink
  rotator : Rotator
  enforce_limits_stats : Nat

/-- `impl Clone for ValidatedPool`: same api, validator flag, options, base
pool contents, rotator and stats; a defaulted (empty, handler-less) event
dispatcher and an empty sink list. -/
def FullPool.clone {σ : Type} (p : FullPool σ) : FullPool σ :=
  { api := p.api
    is_validator := p.is_validator
    options := p.options
    event_dispatcher := { handler := none, watchers := [] }
    pool := p.pool
    import_notification_sinks := []
    rotator := p.rotator
    enforce_limits_stats := p.enforce_limits_stats }

/-- `ValidatedPool::deep_clone_with_event_handler`: the clone, with a fresh
event dispatcher holding only the supplied event handler. -/
def FullPool.deep_clone_with_event_handler {σ : Type} (p : FullPool σ) (handler : Nat) :
    FullPool σ :=
  { p.clone with event_dispatcher := { handler := some handler, watchers := [] } }

/-- Whether, in the given trace, the `ready` event for the hash is dispatched
strictly before the sink-feeding step for the hash (the ordering asserted by
the specification for `submit_one`). -/
def readyDispatchedBeforeSinkPush (tr : List Act) (h : Nat) : Bool :=
  match tr.findIdx? (fun a => a == Act.ev (Event.ready h)),
      tr.findIdx? (fun a => a == Act.sinkPush h) with
  | some i, some j => decide (i < j)
  | _, _ => false

theorem lookupA_nil {α : Type} (k : Nat) : lookupA (α := α) k [] = none := rfl

theorem lookupA_cons {α : Type} (k : Nat) (e : Nat × α) (l : List (Nat × α)) :
    lookupA k (e :: l) = if e.1 = k then some e.2 else lookupA k l := by
  by_cases h : e.1 = k <;> simp [lookupA, List.find?_cons, h]

theorem lookupA_map_replace {α : Type} (k : Nat) (v : α) (l : List (Nat × α))
    (h : ∃ e ∈ l, e.1 = k) :
    lookupA k (l.map (fun e => if e.1 == k then (k, v) else e)) = some v := by
  induction l with
  | nil => simp at h
  | cons e rest ih =>
    by_cases he : e.1 = k
    · simp [lookupA_cons, he]
    · have : ∃ e ∈ rest, e.1 = k := by
        rcases h with ⟨e', he', hk⟩
        rcases List.mem_cons.mp he' with rfl | hmem
        · exact absurd hk he
        · exact ⟨e', hmem, hk⟩
      simp only [List.map_cons]
      rw [if_neg (by simp [he]), lookupA_cons, if_neg he]
      exact ih this

theorem lookupA_insertA_self {α : Type} (k : Nat) (v : α) (l : List (Nat × α)) :
    lookupA k (insertA k v l) = some v := by
  by_cases h : (List.find? (fun x => x.1 == k) l).isSome
  · rw [insertA, if_pos h]
    rw [List.find?_isSome] at h
    exact lookupA_map_replace k v l (by
      rcases h with ⟨e, hel, hek⟩
      exact ⟨e, hel, by simpa using hek⟩)
  · rw [insertA, if_neg h]
    rw [List.find?_isSome] at h
    push_neg at h
    induction l with
    | nil => simp [lookupA_cons]
    | cons e rest ih =>
      have hek : ¬ e.1 = k := by
        intro hk
        exact absurd (by simp [hk] : (fun x => x.1 == k) e = true) (h e (by simp))
      simp only [List.cons_append]
      rw [lookupA_cons, if_neg hek]
      exact ih (fun x hx => h x (List.mem_cons_of_mem _ hx))

theorem lookupA_eraseKey_ne {α : Type} (k h : Nat) (l : List (Nat × α)) (hne : k ≠ h) :
    lookupA k (eraseKey h l) = lookupA k l := by
  induction l with
  | nil => simp [eraseKey]
  | cons e rest ih =>
    by_cases he : e.1 = h
    · rw [eraseKey, List.eraseP_cons_of_pos (by simp [he])]
      rw [lookupA_cons, if_neg (by rw [he]; exact fun x => hne x.symm)]
    · rw [eraseKey, List.eraseP_cons_of_neg (by simp [he])]
      rw [lookupA_cons, lookupA_cons, ← eraseKey, ih]

theorem keys_insertA {α : Type} (k : Nat) (v : α) (l : List (Nat × α)) :
    (insertA k v l).map (·.1) = l.map (·.1) ∨
    (insertA k v l).map (·.1) = l.map (·.1) ++ [k] ∧ k ∉ l.map (·.1) := by
  by_cases h : (List.find? (fun x => x.1 == k) l).isSome
  · left
    simp only [insertA, h, if_true]
    rw [List.map_map]
    apply List.map_congr_left
    intro e _
    by_cases he : e.1 = k <;> simp [he]
  · right
    constructor
    · simp [insertA, h]
    · intro hmem
      rcases List.mem_map.mp hmem with ⟨e, hel, hek⟩
      rw [List.find?_isSome] at h
      exact h ⟨e, hel, by simp [hek]⟩

theorem keysNodup_insertA {α : Type} (k : Nat) (v : α) (l : List (Nat × α))
    (h : (l.map (·.1)).Nodup) : ((insertA k v l).map (·.1)).Nodup := by
  rcases keys_insertA k v l with heq | ⟨heq, hnm⟩
  · rw [heq]; exact h
  · rw [heq]
    simp only [List.nodup_append, List.nodup_cons, List.nodup_nil]
    refine ⟨h, by simp, ?_⟩
    intro a ha
    simp only [List.mem_singleton]
    intro hak
    exact hnm (hak ▸ ha)

theorem mem_keys_insertA {α : Type} (k k' : Nat) (v : α) (l : List (Nat × α)) :
    k' ∈ (insertA k v l).map (·.1) ↔ k' ∈ l.map (·.1) ∨ k' = k := by
  rcases keys_insertA k v l with heq | ⟨heq, _⟩
  · rw [heq]
    constructor
    · exact fun h => Or.inl h
    · rintro (h | h)
      · exact h
      · subst h
        by_cases hin : (List.find? (fun x => x.1 == k') l).isSome
        · rw [List.find?_isSome] at hin
          rcases hin with ⟨e, hel, hek⟩
          exact List.mem_map.mpr ⟨e, hel, by simpa using hek⟩
        · exfalso
          have : (insertA k' v l).map (·.1) = l.map (·.1) ++ [k'] := by simp [insertA, hin]
          rw [this] at heq
          have : k' ∈ l.map (·.1) := by
            rw [← heq]; simp
          rw [List.find?_isSome] at hin
          rcases List.mem_map.mp this with ⟨e, hel, hek⟩
          exact hin ⟨e, hel, by simp [hek]⟩
  · rw [heq]; simp [or_comm]

theorem statusEvent_inj (h h' : Nat) (st st' : Status) :
    statusEvent h st = statusEvent h' st' ↔ h = h' ∧ st = st' := by
  cases st <;> cases st' <;> simp [statusEvent]

theorem dispatchDelta_mem (final : List (Nat × Status)) :
    ∀ (initial : List (Nat × Status)), (final.map (·.1)).Nodup →
    ∀ (h : Nat) (st : Status),
      statusEvent h st ∈ dispatchDelta final initial ↔
        ((h, st) ∈ final ∧ lookupA h initial ≠ some st) := by
  induction final with
  | nil => intro initial _ h st; simp [dispatchDelta]
  | cons e rest ih =>
    intro initial hnd h st
    obtain ⟨h0, s0⟩ := e
    have hnd0 : h0 ∉ rest.map (·.1) := by
      simp only [List.map_cons, List.nodup_cons] at hnd
      exact hnd.1
    have hndr : (rest.map (·.1)).Nodup := by
      simp only [List.map_cons, List.nodup_cons] at hnd
      exact hnd.2
    simp only [dispatchDelta, List.mem_append]
    by_cases hh : h = h0
    · subst hh
      have hrest : (h, st) ∉ rest := fun hmem =>
        hnd0 (List.mem_map.mpr ⟨(h, st), hmem, rfl⟩)
      have htail : statusEvent h st ∉ dispatchDelta rest (eraseKey h initial) := by
        intro hmem
        exact hrest ((ih _ hndr h st).mp hmem).1
      by_cases hl : lookupA h initial = some s0
      · rw [if_pos hl]
        simp only [List.not_mem_nil, false_or]
        constructor
        · intro hmem
          exact absurd hmem htail
        · rintro ⟨hmem, hne⟩
          rcases List.mem_cons.mp hmem with heq | hmem2
          · cases heq
            exact absurd hl hne
          · exact absurd hmem2 hrest
      · rw [if_neg hl]
        simp only [List.mem_singleton]
        constructor
        · intro hmem
          rcases hmem with heq | hmem2
          · rcases (statusEvent_inj h h st s0).mp heq with ⟨_, rfl⟩
            exact ⟨List.mem_cons_self _ _, hl⟩
          · exact absurd hmem2 htail
        · rintro ⟨hmem, hne⟩
          rcases List.mem_cons.mp hmem with heq | hmem2
          · cases heq
            exact Or.inl rfl
          · exact absurd hmem2 hrest
    · have hhead : statusEvent h st ∉ (if lookupA h0 initial = some s0 then
          ([] : List Event) else [statusEvent h0 s0]) := by
        by_cases hl : lookupA h0 initial = some s0
        · simp [hl]
        · simp only [if_neg hl, List.mem_singleton]
          intro heq
          exact hh ((statusEvent_inj h h0 st s0).mp heq).1
      have hlk : lookupA h (eraseKey h0 initial) = lookupA h initial :=
        lookupA_eraseKey_ne h h0 initial hh
      constructor
      · intro hmem
        rcases hmem with hmem | hmem
        · exact absurd hmem hhead
        · have := (ih _ hndr h st).mp hmem
          rw [hlk] at this
          exact ⟨List.mem_cons_of_mem _ this.1, this.2⟩
      · rintro ⟨hmem, hne⟩
        rcases List.mem_cons.mp hmem with heq | hmem2
        · cases heq
          exact absurd rfl hh
        · right
          rw [ih _ hndr h st, hlk]
          exact ⟨hmem2, hne⟩

theorem dispatchDelta_nil_of_same (final : List (Nat × Status)) :
    ∀ (initial : List (Nat × Status)), (final.map (·.1)).Nodup →
    (∀ (h : Nat) (st : Status), (h, st) ∈ final → lookupA h initial = some st) →
    dispatchDelta final initial = [] := by
  induction final with
  | nil => intro initial _ _; rfl
  | cons e rest ih =>
    intro initial hnd hall
    obtain ⟨h0, s0⟩ := e
    have hnd0 : h0 ∉ rest.map (·.1) := by
      simp only [List.map_cons, List.nodup_cons] at hnd
      exact hnd.1
    have hndr : (rest.map (·.1)).Nodup := by
      simp only [List.map_cons, List.nodup_cons] at hnd
      exact hnd.2
    have hl : lookupA h0 initial = some s0 := hall h0 s0 (List.mem_cons_self _ _)
    simp only [dispatchDelta, if_pos hl, List.nil_append]
    apply ih _ hndr
    intro h st hmem
    have hh : h ≠ h0 := by
      intro heq
      subst heq
      exact hnd0 (List.mem_map.mpr ⟨(h, st), hmem, rfl⟩)
    rw [lookupA_eraseKey_ne h h0 initial hh]
    exact hall h st (List.mem_cons_of_mem _ hmem)

theorem dedupKeepFirst_go (l : List Nat) :
    ∀ (acc : List Nat), acc.Nodup →
    (l.foldl (fun acc h => if acc.contains h then acc else acc ++ [h]) acc).Nodup ∧
    (∀ h, h ∈ l.foldl (fun acc h => if acc.contains h then acc else acc ++ [h]) acc ↔
      h ∈ acc ∨ h ∈ l) := by
  induction l with
  | nil => intro acc hnd; simpa using hnd
  | cons x rest ih =>
    intro acc hnd
    by_cases hx : acc.contains x
    · have hfold := ih acc hnd
      simp only [List.foldl_cons, if_pos hx]
      refine ⟨hfold.1, fun h => ?_⟩
      rw [hfold.2 h]
      constructor
      · rintro (ha | hr)
        · exact Or.inl ha
        · exact Or.inr (List.mem_cons_of_mem _ hr)
      · rintro (ha | hr)
        · exact Or.inl ha
        · rcases List.mem_cons.mp hr with rfl | hr2
          · exact Or.inl (by simpa using hx)
          · exact Or.inr hr2
    · have hnd2 : (acc ++ [x]).Nodup := by
        simp only [List.nodup_append, List.nodup_cons, List.nodup_nil]
        refine ⟨hnd, by simp, ?_⟩
        intro a ha
        simp only [List.mem_singleton]
        intro hax
        subst hax
        have : a ∈ acc → False := fun hmem => hx (by simpa using hmem)
        exact this ha
      have hfold := ih (acc ++ [x]) hnd2
      simp only [List.foldl_cons, if_neg hx]
      refine ⟨hfold.1, fun h => ?_⟩
      rw [hfold.2 h]
      simp only [List.mem_append, List.mem_singleton, List.mem_cons]
      tauto

theorem dedupKeepFirst_nodup (l : List Nat) : (dedupKeepFirst l).Nodup :=
  (dedupKeepFirst_go l [] (by simp)).1

theorem mem_dedupKeepFirst (l : List Nat) (h : Nat) : h ∈ dedupKeepFirst l ↔ h ∈ l := by
  rw [dedupKeepFirst, (dedupKeepFirst_go l [] (by simp)).2 h]
  simp

theorem keysNodup_foldl_insertA {β α : Type} (f : β → Nat) (g : β → α) (xs : List β) :
    ∀ (m : List (Nat × α)), (m.map (·.1)).Nodup →
    ((xs.foldl (fun acc x => insertA (f x) (g x) acc) m).map (·.1)).Nodup := by
  induction xs with
  | nil => intro m hm; exact hm
  | cons x rest ih =>
    intro m hm
    simp only [List.foldl_cons]
    exact ih _ (keysNodup_insertA _ _ _ hm)

theorem keysNodup_resubmitApply {σ : Type} (ops : BaseOps σ)
    (txs : List (Nat × ValidatedTransaction)) :
    ∀ (base : σ) (final : List (Nat × Status)), (final.map (·.1)).Nodup →
    ((resubmitApply ops base txs final).1.map (·.1)).Nodup := by
  induction txs with
  | nil => intro base final hf; exact hf
  | cons e rest ih =>
    intro base final hf
    obtain ⟨tx_hash, v⟩ := e
    match v with
    | .Valid tx =>
      simp only [resubmitApply]
      match hir : (ops.importTx base tx).1 with
      | .ok (.Ready h promoted failed removed) =>
        apply ih
        have h1 := keysNodup_insertA tx_hash Status.Ready final hf
        have h2 := keysNodup_foldl_insertA (fun ph => ph) (fun _ => Status.Ready) promoted _ h1
        have h3 := keysNodup_foldl_insertA (fun fh => fh) (fun _ => Status.Failed) failed _ h2
        exact keysNodup_foldl_insertA (fun (t : Tx) => t.hash) (fun _ => Status.Dropped) removed _ h3
      | .ok (.Future h) =>
        exact ih _ _ (keysNodup_insertA tx_hash Status.Future final hf)
      | .error e =>
        exact ih _ _ (keysNodup_insertA tx_hash Status.Failed final hf)
    | .Invalid ih2 e =>
      simp only [resubmitApply]
      exact ih _ _ (keysNodup_insertA tx_hash Status.Failed final hf)
    | .Unknown ih2 e =>
      simp only [resubmitApply]
      exact ih _ _ (keysNodup_insertA tx_hash Status.Failed final hf)

theorem keysNodup_resubmitCore {σ : Type} (ops : BaseOps σ) (base : σ)
    (updated : List (Nat × ValidatedTransaction)) :
    ((resubmitCore ops base updated).2.1.map (·.1)).Nodup := by
  rw [resubmitCore]
  by_cases hprev : ops.getRejectFuture (resubmitCollect ops base updated [] []).2.2
  · simp only [hprev, if_true]
    exact keysNodup_foldl_insertA (fun (t : Tx) => t.hash) (fun _ => Status.Dropped) _ _
      (keysNodup_resubmitApply ops _ _ [] (by simp))
  · simp only [hprev]
    simp only [Bool.false_eq_true, if_false]
    exact keysNodup_resubmitApply ops _ _ [] (by simp)

/-- C2: in `resubmit`, after the removal and re-import phases, a lifecycle
event (the one determined by the final status) is dispatched for a hash if
and only if that hash has a final status that differs from its recorded
initial status or had no recorded initial status; consequently, when every
final status is `Ready` and every such hash was recorded with initial status
`Ready` (as in scenario S6), no lifecycle events are dispatched. -/
theorem claim_C2_resubmit_event_dispatch {σ : Type} (ops : BaseOps σ) (p : VPool σ)
    (updated : List (Nat × ValidatedTransaction)) :
    (resubmit ops p updated).trace =
      p.trace ++ (dispatchDelta (resubmitCore ops p.base updated).2.1
        (resubmitCore ops p.base updated).1).map Act.ev ∧
    (∀ (h : Nat) (st : Status),
      statusEvent h st ∈ dispatchDelta (resubmitCore ops p.base updated).2.1
          (resubmitCore ops p.base updated).1 ↔
        ((h, st) ∈ (resubmitCore ops p.base updated).2.1 ∧
          lookupA h (resubmitCore ops p.base updated).1 ≠ some st)) ∧
    ((∀ (h : Nat) (st : Status), (h, st) ∈ (resubmitCore ops p.base updated).2.1 →
        st = Status.Ready ∧
          lookupA h (resubmitCore ops p.base updated).1 = some Status.Ready) →
      (resubmit ops p updated).trace = p.trace) := by
  refine ⟨rfl, ?_, ?_⟩
  · intro h st
    exact dispatchDelta_mem _ _ (keysNodup_resubmitCore ops p.base updated) h st
  · intro hall
    have hnil : dispatchDelta (resubmitCore ops p.base updated).2.1
        (resubmitCore ops p.base updated).1 = [] := by
      apply dispatchDelta_nil_of_same _ _ (keysNodup_resubmitCore ops p.base updated)
      intro h st hmem
      rcases hall h st hmem with ⟨rfl, hlk⟩
      exact hlk
    have h1 : (resubmit ops p updated).trace =
        p.trace ++ (dispatchDelta (resubmitCore ops p.base updated).2.1
          (resubmitCore ops p.base updated).1).map Act.ev := rfl
    rw [h1, hnil]
    simp

/-- Witness for C2: scenario S6 â two ready transactions (a provider and its
dependant) are both removed and re-imported to `Ready`; since every final
status equals its initial status, no lifecycle events are dispatched. -/
theorem claim_C2_resubmit_event_dispatch_witness :
    (resubmit simpleOps pS6 updS6).trace = [] := by
  have hF : (resubmitCore simpleOps pS6.base updS6).2.1
      = [(1, Status.Ready), (2, Status.Ready)] := by
    norm_num [resubmitCore, resubmitCollect, processRemoved, resubmitApply,
      simpleOps, simpleRemove, simpleImport, SimpleBase.providedTags, txFree, pEmpty,
      pS6, updS6, txS6a, txS6b,
      lookupA, eraseKey, insertA, List.find?, List.eraseP, cond_eq_if]
    decide
  have hI : (resubmitCore simpleOps pS6.base updS6).1
      = [(1, Status.Ready), (2, Status.Ready)] := by
    norm_num [resubmitCore, resubmitCollect, processRemoved, resubmitApply,
      simpleOps, simpleRemove, simpleImport, SimpleBase.providedTags, txFree, pEmpty,
      pS6, updS6, txS6a, txS6b,
      lookupA, eraseKey, insertA, List.find?, List.eraseP, cond_eq_if]
    decide
  have h3 := (claim_C2_resubmit_event_dispatch simpleOps pS6 updS6).2.2
  have h4 := h3 (by
    intro h st hmem
    rw [hF] at hmem
    have hc : (h, st) = (1, Status.Ready) ∨ (h, st) = (2, Status.Ready) := by
      simpa using hmem
    rw [hI]
    rcases hc with hc | hc <;> (cases hc; exact ⟨rfl, by decide⟩))
  simpa [pS6, pEmpty] using h4

theorem submit_one_trace_delta {σ : Type} (ops : BaseOps σ) (now : Nat) (p : VPool σ)
    (vtx : ValidatedTransaction) :
    ∃ δ, (submit_one ops now p vtx).2.trace = p.trace ++ δ ∧
      Act.enforceLimitsCall ∉ δ := by
  match vtx with
  | .Valid tx =>
    by_cases hprop : (!tx.propagate && !p.is_validator) = true
    · exact ⟨[], by simp [submit_one, hprop], by simp⟩
    · match hir : (ops.importTx p.base tx).1 with
      | .error e =>
        refine ⟨[], ?_, by simp⟩
        simp [submit_one, hprop, hir]
      | .ok imported =>
        match imported with
        | .Ready h promoted failed removed =>
          refine ⟨[Act.sinkPush h] ++
            (fire_events (.Ready h promoted failed removed)).map Act.ev, ?_, ?_⟩
          · simp [submit_one, hprop, hir, feedSinks]
          · intro hmem
            simp only [List.cons_append, List.nil_append, List.mem_cons, List.mem_map] at hmem
            rcases hmem with heq | ⟨e, _, heq⟩ <;> exact absurd heq (by simp)
        | .Future h =>
          refine ⟨(fire_events (.Future h)).map Act.ev, ?_, ?_⟩
          · simp [submit_one, hprop, hir]
          · intro hmem
            rcases List.mem_map.mp hmem with ⟨e, _, heq⟩
            exact absurd heq (by simp)
  | .Invalid h e => exact ⟨[], by simp [submit_one], by simp⟩
  | .Unknown h e =>
    exact ⟨[Act.ev (Event.invalid h)], by simp [submit_one], by simp⟩

theorem submit_all_trace_delta {σ : Type} (ops : BaseOps σ) (now : Nat)
    (txs : List ValidatedTransaction) :
    ∀ (p : VPool σ), ∃ δ, (submit_all ops now p txs).2.trace = p.trace ++ δ ∧
      Act.enforceLimitsCall ∉ δ := by
  induction txs with
  | nil => intro p; exact ⟨[], by simp [submit_all], by simp⟩
  | cons vtx rest ih =>
    intro p
    rcases submit_one_trace_delta ops now p vtx with ⟨δ1, h1, hm1⟩
    rcases ih (submit_one ops now p vtx).2 with ⟨δ2, h2, hm2⟩
    refine ⟨δ1 ++ δ2, ?_, ?_⟩
    · show (submit_all ops now (submit_one ops now p vtx).2 rest).2.trace = _
      rw [h2, h1, List.append_assoc]
    · intro hmem
      rcases List.mem_append.mp hmem with h | h
      · exact hm1 h
      · exact hm2 h

theorem submit_all_length {σ : Type} (ops : BaseOps σ) (now : Nat)
    (txs : List ValidatedTransaction) :
    ∀ (p : VPool σ), (submit_all ops now p txs).1.length = txs.length := by
  induction txs with
  | nil => intro p; rfl
  | cons vtx rest ih =>
    intro p
    show ((submit_one ops now p vtx).1 :: (submit_all ops now _ rest).1).length = _
    simp [ih]

theorem enforce_limits_trace {σ : Type} (ops : BaseOps σ) (now : Nat) (p : VPool σ) :
    ∃ rest, (enforce_limits ops now p).2.trace =
      p.trace ++ [Act.enforceLimitsCall] ++ rest := by
  rw [enforce_limits]
  by_cases hex : (p.options.ready.is_exceeded (ops.status p.base).ready
      (ops.status p.base).ready_bytes ||
    p.options.future.is_exceeded (ops.status p.base).future
      (ops.status p.base).future_bytes) = true
  · refine ⟨(dedupKeepFirst ((ops.enforceLimits p.base p.options.ready
      p.options.future).1.map (·.hash))).map (fun h => Act.ev (Event.limitsEnforced h)), ?_⟩
    simp [hex, List.append_assoc]
  · refine ⟨[], ?_⟩
    simp [hex]

/-- C1: `submit` returns one result per input verdict in input order (the
per-element `submit_one` results); `enforce_limits` is invoked exactly when
at least one per-element import succeeded; each successful outcome whose
hash is in the evicted set is rewritten to `ImmediatelyDropped`, and every
other result is returned unchanged. -/
theorem claim_C1_submit_batch {σ : Type} (ops : BaseOps σ) (now : Nat) (p : VPool σ)
    (txs : List ValidatedTransaction) :
    (submit ops now p txs).1 =
      (submit_all ops now p txs).1.map (rewriteEvicted
        (if (submit_all ops now p txs).1.any (fun r => r.toBool)
         then (enforce_limits ops now (submit_all ops now p txs).2).1 else [])) ∧
    (submit ops now p txs).1.length = txs.length ∧
    ∃ δ, (submit ops now p txs).2.trace = p.trace ++ δ ∧
      (Act.enforceLimitsCall ∈ δ ↔
        (submit_all ops now p txs).1.any (fun r => r.toBool) = true) := by
  rcases submit_all_trace_delta ops now txs p with ⟨δ1, hδ1, hm1⟩
  by_cases hany : (submit_all ops now p txs).1.any (fun r => r.toBool) = true
  · refine ⟨?_, ?_, ?_⟩
    · simp [submit, hany]
    · simp [submit, hany, submit_all_length]
    · rcases enforce_limits_trace ops now (submit_all ops now p txs).2 with ⟨rest, hrest⟩
      refine ⟨δ1 ++ [Act.enforceLimitsCall] ++ rest, ?_, ?_⟩
      · have : (submit ops now p txs).2 =
            (enforce_limits ops now (submit_all ops now p txs).2).2 := by
          simp [submit, hany]
        rw [this, hrest, hδ1]
        simp [List.append_assoc]
      · constructor
        · intro _; exact hany
        · intro _; simp
  · refine ⟨?_, ?_, ?_⟩
    · simp [submit, hany]
    · simp [submit, hany, submit_all_length]
    · refine ⟨δ1, ?_, ?_⟩
      · have : (submit ops now p txs).2 = (submit_all ops now p txs).2 := by
          simp [submit, hany]
        rw [this, hδ1]
      · constructor
        · intro hmem; exact absurd hmem hm1
        · intro hc; exact absurd hc hany

/-- C5: for an `Invalid` verdict, `submit_one` bans the hash (until
`now + ban_time`, i.e. for the ban duration) and returns the error, touching
neither the base pool nor the trace (no watcher event); for an `Unknown`
verdict it dispatches `invalid(hash)` to watchers, does not ban, and returns
the error. -/
theorem claim_C5_submit_one_invalid_unknown {σ : Type} (ops : BaseOps σ) (now : Nat)
    (p : VPool σ) (h : Nat) (e : PoolError) :
    submit_one ops now p (.Invalid h e) =
      (.error e, { p with rotator := p.rotator.ban now [h] }) ∧
    lookupA h (p.rotator.ban now [h]).banned = some (now + p.rotator.ban_time) ∧
    submit_one ops now p (.Unknown h e) =
      (.error e, { p with trace := p.trace ++ [Act.ev (Event.invalid h)] }) := by
  refine ⟨rfl, ?_, rfl⟩
  show lookupA h (List.foldl (fun m x => insertA x (now + p.rotator.ban_time) m)
    p.rotator.banned [h]) = some (now + p.rotator.ban_time)
  simp only [List.foldl_cons, List.foldl_nil]
  exact lookupA_insertA_self h _ p.rotator.banned

/-- C3 counterexample: on an `Unknown` verdict, `submit_and_watch` dispatches
no `invalid` event (it leaves the trace untouched), while `submit_one` on the
same input does dispatch `invalid(hash)` — so `submit_and_watch` does not
behave as `submit_one` for `Unknown` verdicts. -/
theorem claim_C3_counterexample :
    Act.ev (Event.invalid 5) ∉
      (submit_and_watch simpleOps (fun d => d) 0 pEmpty (.Unknown 5 (.Other 3))).2.trace ∧
    (submit_and_watch simpleOps (fun d => d) 0 pEmpty (.Unknown 5 (.Other 3))).2.trace = [] ∧
    (submit_one simpleOps 0 pEmpty (.Unknown 5 (.Other 3))).2.trace
      = [Act.ev (Event.invalid 5)] := by
  refine ⟨?_, rfl, rfl⟩
  intro hmem
  simp only [submit_and_watch, pEmpty] at hmem
  exact absurd hmem (by decide)

/-- C3 (amended): for an `Unknown` verdict, `submit_and_watch` returns the
inner error and leaves the pool state unchanged — in particular it does not
dispatch `invalid(hash)` (unlike `submit_one`) and does not ban; for an
`Invalid` verdict it bans the hash (until `now + ban_time`) and returns the
error. -/
theorem claim_C3_submit_and_watch_amended {σ : Type} (ops : BaseOps σ) (api : Nat → Nat)
    (now : Nat) (p : VPool σ) (h : Nat) (e : PoolError) :
    submit_and_watch ops api now p (.Unknown h e) = (.error e, p) ∧
    submit_and_watch ops api now p (.Invalid h e) =
      (.error e, { p with rotator := p.rotator.ban now [h] }) ∧
    lookupA h (p.rotator.ban now [h]).banned = some (now + p.rotator.ban_time) := by
  refine ⟨rfl, rfl, ?_⟩
  show lookupA h (List.foldl (fun m x => insertA x (now + p.rotator.ban_time) m)
    p.rotator.banned [h]) = some (now + p.rotator.ban_time)
  simp only [List.foldl_cons, List.foldl_nil]
  exact lookupA_insertA_self h _ p.rotator.banned

/-- C4 counterexample: for a `Valid` verdict imported as `Ready`, the trace
of `submit_one` is the sink push followed by the `ready` dispatch — the
`ready` event is dispatched after, not before, the hash is pushed into the
import-notification sinks. -/
theorem claim_C4_counterexample :
    (submit_one simpleOps 0 pSink (.Valid (txFree 7))).2.trace
      = [Act.sinkPush 7, Act.ev (Event.ready 7)] ∧
    readyDispatchedBeforeSinkPush
      (submit_one simpleOps 0 pSink (.Valid (txFree 7))).2.trace 7 = false := by
  exact ⟨rfl, rfl⟩

/-- C4 (amended): for every `Valid` verdict whose base-pool import yields
`Imported::Ready`, `submit_one` pushes the hash into the import-notification
sinks first and dispatches the `ready` event afterwards: the trace delta is
the sink push followed by the import events, whose first element is
`ready(hash)`. -/
theorem claim_C4_sink_push_before_ready_amended {σ : Type} (ops : BaseOps σ) (now : Nat)
    (p : VPool σ) (tx : Tx) (h : Nat) (promoted failed : List Nat) (removed : List Tx)
    (hprop : (!tx.propagate && !p.is_validator) = false)
    (himp : (ops.importTx p.base tx).1 = .ok (.Ready h promoted failed removed)) :
    (submit_one ops now p (.Valid tx)).2.trace =
      p.trace ++ [Act.sinkPush h] ++
        (fire_events (.Ready h promoted failed removed)).map Act.ev ∧
    (fire_events (.Ready h promoted failed removed)).head? = some (Event.ready h) := by
  constructor
  · simp [submit_one, hprop, himp, feedSinks]
  · rfl

/-- Witness for the amended C4 at a concrete input: one open sink, a free
transaction imported as `Ready`. -/
theorem claim_C4_sink_push_before_ready_amended_witness :
    (submit_one simpleOps 0 pSink (.Valid (txFree 7))).2.trace =
      pSink.trace ++ [Act.sinkPush 7] ++
        (fire_events (.Ready 7 [] [] [])).map Act.ev ∧
    (fire_events (.Ready 7 [] [] [])).head? = some (Event.ready 7) :=
  claim_C4_sink_push_before_ready_amended simpleOps 0 pSink (txFree 7) 7 [] [] []
    (by decide) rfl

theorem eventsOf_append (a b : List Act) : eventsOf (a ++ b) = eventsOf a ++ eventsOf b := by
  simp [eventsOf, List.filterMap_append]

theorem limitsEnforced_injective : Function.Injective Event.limitsEnforced := by
  intro a b hab
  cases hab
  rfl

/-- C6: if neither partition exceeds its configured cap, `enforce_limits`
returns the empty set and changes nothing (base pool, rotator, sinks and
dispatched events are untouched); otherwise it evicts via the base pool,
bans every evicted hash, dispatches `limits_enforced` exactly once per
evicted hash, and returns exactly the set of evicted hashes. -/
theorem claim_C6_enforce_limits {σ : Type} (ops : BaseOps σ) (now : Nat) (p : VPool σ) :
    ((p.options.ready.is_exceeded (ops.status p.base).ready (ops.status p.base).ready_bytes ||
      p.options.future.is_exceeded (ops.status p.base).future (ops.status p.base).future_bytes)
        = false →
      (enforce_limits ops now p).1 = [] ∧
      (enforce_limits ops now p).2.base = p.base ∧
      (enforce_limits ops now p).2.rotator = p.rotator ∧
      (enforce_limits ops now p).2.sinks = p.sinks ∧
      eventsOf (enforce_limits ops now p).2.trace = eventsOf p.trace) ∧
    ((p.options.ready.is_exceeded (ops.status p.base).ready (ops.status p.base).ready_bytes ||
      p.options.future.is_exceeded (ops.status p.base).future (ops.status p.base).future_bytes)
        = true →
      (enforce_limits ops now p).1 = dedupKeepFirst
        ((ops.enforceLimits p.base p.options.ready p.options.future).1.map (·.hash)) ∧
      (∀ h, h ∈ (enforce_limits ops now p).1 ↔
        h ∈ (ops.enforceLimits p.base p.options.ready p.options.future).1.map (·.hash)) ∧
      (enforce_limits ops now p).2.base =
        (ops.enforceLimits p.base p.options.ready p.options.future).2 ∧
      (enforce_limits ops now p).2.rotator = p.rotator.ban now (enforce_limits ops now p).1 ∧
      (enforce_limits ops now p).2.trace = p.trace ++ [Act.enforceLimitsCall] ++
        (enforce_limits ops now p).1.map (fun h => Act.ev (Event.limitsEnforced h)) ∧
      (enforce_limits ops now p).1.Nodup ∧
      (∀ h, h ∈ (enforce_limits ops now p).1 →
        ((enforce_limits ops now p).1.map (fun x => Event.limitsEnforced x)).count
          (Event.limitsEnforced h) = 1)) := by
  constructor
  · intro hex
    refine ⟨?_, ?_, ?_, ?_, ?_⟩ <;>
      simp [enforce_limits, hex, eventsOf_append, eventsOf]
  · intro hex
    have h1 : (enforce_limits ops now p).1 = dedupKeepFirst
        ((ops.enforceLimits p.base p.options.ready p.options.future).1.map (·.hash)) := by
      simp [enforce_limits, hex]
    refine ⟨h1, ?_, ?_, ?_, ?_, ?_, ?_⟩
    · intro h
      rw [h1, mem_dedupKeepFirst]
    · simp [enforce_limits, hex]
    · rw [h1]
      simp [enforce_limits, hex]
    · rw [h1]
      simp [enforce_limits, hex, List.append_assoc]
    · rw [h1]
      exact dedupKeepFirst_nodup _
    · intro h hmem
      rw [List.count_map_of_injective _ _ limitsEnforced_injective]
      have hnd : (enforce_limits ops now p).1.Nodup := by
        rw [h1]; exact dedupKeepFirst_nodup _
      have hle := List.nodup_iff_count_le_one.mp hnd h
      have hge := List.count_pos_iff.mpr hmem
      omega

/-- Witness for C6: a pool within limits returns the empty eviction set and
no events; a pool over its ready-count limit evicts the transaction beyond
the cap, bans it, and dispatches `limits_enforced` for it. -/
theorem claim_C6_enforce_limits_witness :
    (enforce_limits simpleOps 0 pEmpty).1 = [] ∧
    eventsOf (enforce_limits simpleOps 0 pEmpty).2.trace = [] ∧
    (enforce_limits simpleOps 0 pOver).1 = [2] ∧
    (enforce_limits simpleOps 0 pOver).2.rotator = pOver.rotator.ban 0 [2] ∧
    (enforce_limits simpleOps 0 pOver).2.trace =
      [Act.enforceLimitsCall, Act.ev (Event.limitsEnforced 2)] := by
  have h1 := (claim_C6_enforce_limits simpleOps 0 pEmpty).1 (by decide)
  have h2 := (claim_C6_enforce_limits simpleOps 0 pOver).2 (by decide)
  have hval : (enforce_limits simpleOps 0 pOver).1 = [2] := by
    rw [h2.1]
    decide
  refine ⟨h1.1, ?_, hval, ?_, ?_⟩
  · rw [h1.2.2.2.2]
    decide
  · rw [h2.2.2.2.1, hval]
  · rw [h2.2.2.2.2.1, hval]
    decide

theorem Rotator.ban_ban_time (r : Rotator) (now : Nat) (hs : List Nat) :
    (r.ban now hs).ban_time = r.ban_time := rfl

theorem Rotator.ban_hard_age (r : Rotator) (now : Nat) (hs : List Nat) :
    (r.ban now hs).hard_age = r.hard_age := rfl

theorem Rotator.ban_append (r : Rotator) (now : Nat) (a b : List Nat) :
    r.ban now (a ++ b) = (r.ban now a).ban now b := by
  simp [Rotator.ban, List.foldl_append]

theorem Rotator.ban_cons (r : Rotator) (now : Nat) (h : Nat) (hs : List Nat) :
    r.ban now (h :: hs) = (r.ban now [h]).ban now hs := by
  simp [Rotator.ban]

theorem banIfStaleFilter_spec (now number : Nat) (txs : List Tx) :
    ∀ (r : Rotator),
      banIfStaleFilter r now number txs =
        (((txs.filter (staleB r.hard_age now number)).map (·.hash)),
          r.ban now ((txs.filter (staleB r.hard_age now number)).map (·.hash))) := by
  induction txs with
  | nil =>
    intro r
    simp [banIfStaleFilter, Rotator.ban]
  | cons tx rest ih =>
    intro r
    by_cases hst : staleB r.hard_age now number tx = true
    · have hb : r.ban_if_stale now number tx = (true, r.ban now [tx.hash]) := by
        simp [Rotator.ban_if_stale, hst]
      have hha : (r.ban now [tx.hash]).hard_age = r.hard_age := rfl
      simp only [banIfStaleFilter, hb, List.filter_cons, hst, if_true]
      rw [ih (r.ban now [tx.hash])]
      rw [hha]
      simp only [List.map_cons]
      exact congrArg (Prod.mk _) (Rotator.ban_cons r now tx.hash _).symm
    · have hb : r.ban_if_stale now number tx = (false, r) := by
        simp [Rotator.ban_if_stale, hst]
      simp only [banIfStaleFilter, hb, List.filter_cons, hst]
      rw [ih r]
      simp

/-- C7: `clear_stale(at)` collects, from the ready iterator and then from the
futures iterator, exactly the hashes of transactions satisfying the
staleness predicate of `ban_if_stale` (banning them along the way), removes
each collected list through `remove_invalid` (which bans the roots and
dispatches `invalid` per removed transaction), and finally clears expired
rotator timeouts; in particular (scenario S5) a ready transaction with
`valid_till = 100` is removed, gets an `invalid` event, and is banned when
`clear_stale` runs at block number 200. -/
theorem claim_C7_clear_stale {σ : Type} (ops : BaseOps σ) (now : Nat) (p : VPool σ)
    (number : Nat) :
    (clear_stale ops now p number =
      (let R := ((ops.readyList p.base).filter
        (staleB p.rotator.hard_age now number)).map (·.hash)
       let F := ((ops.futuresList p.base).filter
        (staleB p.rotator.hard_age now number)).map (·.hash)
       let p1 := { p with rotator := p.rotator.ban now (R ++ F) }
       let p2 := (remove_invalid ops now p1 R).2
       let p3 := (remove_invalid ops now p2 F).2
       { p3 with rotator := p3.rotator.clear_timeouts now })) ∧
    ((clear_stale simpleOps 0 pStale 200).base.readyTxs = [] ∧
     (clear_stale simpleOps 0 pStale 200).trace = [Act.ev (Event.invalid 3)] ∧
     (clear_stale simpleOps 0 pStale 200).rotator.is_banned 0 3 = true) := by
  constructor
  · rw [clear_stale]
    rw [banIfStaleFilter_spec now number (ops.readyList p.base) p.rotator]
    rw [banIfStaleFilter_spec now number (ops.futuresList p.base)]
    rw [Rotator.ban_hard_age]
    rw [← Rotator.ban_append]
  · refine ⟨?_, ?_, ?_⟩ <;> decide

/-- C8: with `|pruned_hashes| = |pruned_xts|`, `resubmit_pruned` submits the
pruned candidates; the `in_block` (pruned) notification is fired at most
once per distinct hash, over exactly the hashes `pruned_hashes[i]` whose
submission result classifies to `InvalidTransaction`, chained with the known
imported hashes; and afterwards `clear_stale(at)` is applied to the
resulting state. -/
theorem claim_C8_resubmit_pruned {σ : Type} (ops : BaseOps σ) (now : Nat) (p : VPool σ)
    (atHash atNumber : Nat) (known pruned_hashes : List Nat)
    (pruned_xts : List ValidatedTransaction)
    (hlen : pruned_hashes.length = pruned_xts.length) :
    resubmit_pruned ops now p atHash atNumber known pruned_hashes pruned_xts =
      clear_stale ops now
        (fire_pruned (submit ops now p pruned_xts).2 atHash
          (collectPrunedHashes pruned_hashes (submit ops now p pruned_xts).1 ++ known))
        atNumber ∧
    (fire_pruned (submit ops now p pruned_xts).2 atHash
        (collectPrunedHashes pruned_hashes (submit ops now p pruned_xts).1 ++ known)).trace =
      (submit ops now p pruned_xts).2.trace ++
        (dedupKeepFirst (collectPrunedHashes pruned_hashes
          (submit ops now p pruned_xts).1 ++ known)).map
            (fun h => Act.ev (Event.pruned atHash h)) ∧
    (dedupKeepFirst (collectPrunedHashes pruned_hashes
      (submit ops now p pruned_xts).1 ++ known)).Nodup ∧
    (∀ h, h ∈ dedupKeepFirst (collectPrunedHashes pruned_hashes
        (submit ops now p pruned_xts).1 ++ known) ↔
      h ∈ collectPrunedHashes pruned_hashes (submit ops now p pruned_xts).1 ∨ h ∈ known) := by
  refine ⟨rfl, rfl, dedupKeepFirst_nodup _, ?_⟩
  intro h
  rw [mem_dedupKeepFirst, List.mem_append]

/-- Witness for C8: one pruned candidate whose re-submission fails as
`InvalidTransaction`, so its hash is fired, deduplicated against the known
imported hashes. -/
theorem claim_C8_resubmit_pruned_witness :
    resubmit_pruned simpleOps 0 pEmpty 99 0 [7, 8] [7]
        [ValidatedTransaction.Invalid 9 (.InvalidTransaction 0)] =
      clear_stale simpleOps 0
        (fire_pruned (submit simpleOps 0 pEmpty
            [ValidatedTransaction.Invalid 9 (.InvalidTransaction 0)]).2 99
          (collectPrunedHashes [7] (submit simpleOps 0 pEmpty
            [ValidatedTransaction.Invalid 9 (.InvalidTransaction 0)]).1 ++ [7, 8]))
        0 ∧
    dedupKeepFirst (collectPrunedHashes [7] (submit simpleOps 0 pEmpty
      [ValidatedTransaction.Invalid 9 (.InvalidTransaction 0)]).1 ++ [7, 8]) = [7, 8] := by
  have h1 := claim_C8_resubmit_pruned simpleOps 0 pEmpty 99 0 [7, 8] [7]
    [ValidatedTransaction.Invalid 9 (.InvalidTransaction 0)] (by decide)
  exact ⟨h1.1, by decide⟩

/-- C9: `valid_at` computes `valid_till` as `at + longevity` with saturating
unsigned 64-bit arithmetic: within `u64` bounds it is the exact sum capped at
`u64::MAX`, and on overflow it equals `u64::MAX` rather than the wrapped
(mod `2^64`) value. -/
theorem claim_C9_valid_at_saturates (at_ hash arrival data bytes : Nat)
    (validity : ValidTransactionV)
    (h1 : at_ ≤ U64MAX) (h2 : validity.longevity ≤ U64MAX) :
    ∃ tx, valid_at at_ hash arrival data bytes validity = .Valid tx ∧
      tx.valid_till = min (at_ + validity.longevity) U64MAX ∧
      (U64MAX < at_ + validity.longevity →
        tx.valid_till = U64MAX ∧
        tx.valid_till ≠ (at_ + validity.longevity) % 2 ^ 64) := by
  refine ⟨_, rfl, rfl, ?_⟩
  intro hover
  have hsat : saturatingAdd64 at_ validity.longevity = U64MAX := by
    rw [saturatingAdd64]
    omega
  have hge : 2 ^ 64 ≤ at_ + validity.longevity := by
    have : U64MAX = 2 ^ 64 - 1 := rfl
    omega
  have hmod : (at_ + validity.longevity) % 2 ^ 64 = at_ + validity.longevity - 2 ^ 64 := by
    have hlt : at_ + validity.longevity - 2 ^ 64 < 2 ^ 64 := by
      have : U64MAX = 2 ^ 64 - 1 := rfl
      omega
    rw [Nat.mod_eq_sub_mod hge, Nat.mod_eq_of_lt hlt]
  constructor
  · show saturatingAdd64 at_ validity.longevity = U64MAX
    exact hsat
  · show saturatingAdd64 at_ validity.longevity ≠ (at_ + validity.longevity) % 2 ^ 64
    rw [hsat, hmod]
    have : U64MAX = 2 ^ 64 - 1 := rfl
    omega

/-- Witness for C9 at an overflowing input: `at = u64::MAX`, longevity 5. -/
theorem claim_C9_valid_at_saturates_witness :
    ∃ tx, valid_at U64MAX 1 2 3 4
        { priority := 5, requires := [], provides := [], longevity := 5, propagate := true }
        = .Valid tx ∧
      tx.valid_till = min (U64MAX + 5) U64MAX ∧
      (U64MAX < U64MAX + 5 →
        tx.valid_till = U64MAX ∧ tx.valid_till ≠ (U64MAX + 5) % 2 ^ 64) :=
  claim_C9_valid_at_saturates U64MAX 1 2 3 4
    { priority := 5, requires := [], provides := [], longevity := 5, propagate := true }
    (Nat.le_refl _) (by norm_num [U64MAX])

/-- C10: cloning a `ValidatedPool` keeps the base-pool contents, the options
and the rest of the configuration (api, validator flag, rotator, stats), but
resets the event dispatcher to an empty watcher registry with no handler and
empties the import-notification sink list; `deep_clone_with_event_handler`
additionally installs exactly the freshly supplied event handler, still with
an empty watcher registry and empty sink list. -/
theorem claim_C10_clone_resets_observers {σ : Type} (p : FullPool σ) (handler : Nat) :
    p.clone.pool = p.pool ∧
    p.clone.options = p.options ∧
    p.clone.api = p.api ∧
    p.clone.is_validator = p.is_validator ∧
    p.clone.rotator = p.rotator ∧
    p.clone.enforce_limits_stats = p.enforce_limits_stats ∧
    p.clone.event_dispatcher.watchers = [] ∧
    p.clone.event_dispatcher.handler = none ∧
    p.clone.import_notification_sinks = [] ∧
    (p.deep_clone_with_event_handler handler).pool = p.pool ∧
    (p.deep_clone_with_event_handler handler).options = p.options ∧
    (p.deep_clone_with_event_handler handler).event_dispatcher.watchers = [] ∧
    (p.deep_clone_with_event_handler handler).event_dispatcher.handler = some handler ∧
    (p.deep_clone_with_event_handler handler).import_notification_sinks = [] := by
  refine ⟨rfl, rfl, rfl, rfl, rfl, rfl, rfl, rfl, rfl, rfl, rfl, rfl, rfl, rfl⟩
